import Mathlib

/- Verification development for the hand-eye calibration core of
   tasks/calibrate.py (class Calibration).

   The numeric embedding uses exact arithmetic: the collection loop, grid
   generation and post-collection control flow are modelled over ℚ
   (executable, decidable), while the SVD-based rigid-transform estimator
   and the RMSE objective are additionally instantiated over ℝ where the
   analytic facts (positive-semidefinite square roots, Real.sqrt) live.

   numpy's SVD is an external routine; the estimator is therefore
   parameterised by an oracle producing the triple (U, S, Vt), and theorems
   that depend on properties of a genuine singular value decomposition take
   those properties as explicit hypotheses (IsSVD below). -/

set_option maxHeartbeats 1600000

open Matrix

namespace Calib

/-- Square 3x3 matrices over the scalar field. -/
abbrev Mat3 (K : Type) := Matrix (Fin 3) (Fin 3) K

/-- The shape of np.linalg.svd on a 3x3 matrix: a triple (U, S, Vt).
The middle component is the vector of singular values. -/
abbrev SvdOracle (K : Type) := Mat3 K → Mat3 K × (Fin 3 → K) × Mat3 K

variable {K : Type} [LinearOrderedField K]

/-- np.mean(A, axis=0) in `_get_rigid_transform` (calibrate.py line 41): the
column-wise mean of an N x 3 point matrix. -/
def centroid {n : ℕ} (A : Matrix (Fin n) (Fin 3) K) : Fin 3 → K :=
  fun i => (∑ r, A r i) / (n : K)

/-- `A - np.tile(centroid_A, (N, 1))` (calibrate.py line 43): centre the
points by subtracting the centroid from every row. -/
def centered {n : ℕ} (A : Matrix (Fin n) (Fin 3) K) : Matrix (Fin n) (Fin 3) K :=
  Matrix.of fun r i => A r i - centroid A i

/-- `H = np.dot(np.transpose(AA), BB)` (calibrate.py line 45): the 3x3
cross-covariance of the two centred point sets. -/
def covH {n : ℕ} (A B : Matrix (Fin n) (Fin 3) K) : Mat3 K :=
  (centered A)ᵀ * centered B

/-- `Vt[2, :] *= -1` (calibrate.py line 49): negate the third row. -/
def negRow2 (M : Mat3 K) : Mat3 K :=
  Matrix.of fun i j => if i = 2 then -(M i j) else M i j

/-- `Calibration._get_rigid_transform` (calibrate.py lines 34-52), with
np.linalg.svd abstracted as an oracle.  Computes R = Vt.T @ U.T, applies the
special-reflection correction when det(R) < 0 (negate the third row of Vt and
recompute R), and returns t = (-R) @ centroid_A + centroid_B. -/
def get_rigid_transform {n : ℕ} (svd : SvdOracle K) (A B : Matrix (Fin n) (Fin 3) K) :
    Mat3 K × (Fin 3 → K) :=
  let H := covH A B
  let USVt := svd H
  let U := USVt.1
  let Vt := USVt.2.2
  let R1 := Vtᵀ * Uᵀ
  let R := if R1.det < 0 then (negRow2 Vt)ᵀ * Uᵀ else R1
  let t := (-R).mulVec (centroid A) + centroid B
  (R, t)

/-- Back-projection block of `_get_rigid_transform_error` (calibrate.py lines
61-66): observed_z = observed_pts[:, 2] * z_scale, then
x = (pix[:, 0] - intrinsics[0][2]) * (observed_z / intrinsics[0][0]) and
y = (pix[:, 1] - intrinsics[1][2]) * (observed_z / intrinsics[1][1]),
concatenated as columns x, y, z. -/
def new_observed_pts {n : ℕ} (intr : Mat3 K) (pix : Matrix (Fin n) (Fin 2) K)
    (obs : Matrix (Fin n) (Fin 3) K) (z_scale : K) : Matrix (Fin n) (Fin 3) K :=
  Matrix.of fun r i =>
    if i = 0 then (pix r 0 - intr 0 2) * (obs r 2 * z_scale / intr 0 0)
    else if i = 1 then (pix r 1 - intr 1 2) * (obs r 2 * z_scale / intr 1 1)
    else obs r 2 * z_scale

/-- The 4x4 homogeneous matrix `np.concatenate((np.concatenate((R, t), axis=1),
np.array([[0, 0, 0, 1]])), axis=0)` (calibrate.py line 71). -/
def homog (R : Mat3 K) (t : Fin 3 → K) : Matrix (Fin 4) (Fin 4) K :=
  Matrix.of fun i j =>
    if hi : (i : ℕ) < 3 then
      if hj : (j : ℕ) < 3 then R ⟨i, hi⟩ ⟨j, hj⟩ else t ⟨i, hi⟩
    else if (j : ℕ) < 3 then 0 else 1

/-- `registered_pts = np.dot(R, np.transpose(measured_pts)) + np.tile(t, (1, N))`
(calibrate.py line 74). -/
def registered_pts {n : ℕ} (R : Mat3 K) (t : Fin 3 → K)
    (measured : Matrix (Fin n) (Fin 3) K) : Matrix (Fin 3) (Fin n) K :=
  R * measuredᵀ + Matrix.of fun i _ => t i

/-- `error = np.transpose(registered_pts) - new_observed_pts;
error = np.sum(np.multiply(error, error))` (calibrate.py lines 75-76). -/
def sseOf {n : ℕ} (R : Mat3 K) (t : Fin 3 → K)
    (measured newObs : Matrix (Fin n) (Fin 3) K) : K :=
  ∑ r, ∑ i, ((registered_pts R t measured)ᵀ r i - newObs r i) ^ 2

/-- The local `world2camera` built inside `_get_rigid_transform_error`
(calibrate.py lines 69-71) from the estimator's output on (measured, newObs). -/
def world2cameraOf {n : ℕ} (svd : SvdOracle K) (A B : Matrix (Fin n) (Fin 3) K) :
    Matrix (Fin 4) (Fin 4) K :=
  homog (get_rigid_transform svd A B).1 (get_rigid_transform svd A B).2

/-- `Calibration._get_rigid_transform_error` (calibrate.py lines 54-78) on
matrix-shaped data: back-project, estimate the rigid transform, build the
(immediately discarded, method-local) world2camera, and return
sqrt(sum of squared residuals / N). -/
noncomputable def get_rigid_transform_error {n : ℕ} (svd : SvdOracle ℝ) (intr : Mat3 ℝ)
    (measured obs : Matrix (Fin n) (Fin 3) ℝ) (pix : Matrix (Fin n) (Fin 2) ℝ)
    (z_scale : ℝ) : ℝ :=
  let newObs := new_observed_pts intr pix obs z_scale
  let Rt := get_rigid_transform svd measured newObs
  let _world2camera := homog Rt.1 Rt.2
  Real.sqrt (sseOf Rt.1 Rt.2 measured newObs / (n : ℝ))

/-- np.linspace(lo, hi, num) with endpoint=True (the default): `num` evenly
spaced values whose last element is exactly `hi` when num >= 2; [lo] when
num = 1; [] when num = 0. -/
def linspace (lo hi : ℚ) (num : ℕ) : List ℚ :=
  (List.range num).map fun (i : ℕ) =>
    if num ≤ 1 then lo else lo + (hi - lo) * (i : ℚ) / ((num : ℚ) - 1)

/-- The per-axis point count `1 + (max - min) / step` passed to np.linspace in
`_generate_grid` (calibrate.py lines 86-94).  The source passes this float
straight through as linspace's `num`, so it is truncated to an integer. -/
def numPts (lo hi step : ℚ) : ℕ :=
  (⌊(1 : ℚ) + (hi - lo) / step⌋).toNat

/-- One axis of the calibration grid: np.linspace(lo, hi, 1 + (hi - lo)/step). -/
def gridAxis (lo hi step : ℚ) : List ℚ :=
  linspace lo hi (numPts lo hi step)

/-- `Calibration._generate_grid` (calibrate.py lines 80-101):
np.meshgrid(gx, gy, gz) with default indexing gives arrays of shape
(len gy, len gx, len gz) with X[j,i,k] = gx[i], Y[j,i,k] = gy[j],
Z[j,i,k] = gz[k]; the C-order reshape to (N, 1) columns therefore lists the
points with y outermost, then x, then z innermost. -/
def generate_grid (limits : Fin 3 → ℚ × ℚ) (step : ℚ) : List (Fin 3 → ℚ) :=
  let gx := gridAxis (limits 0).1 (limits 0).2 step
  let gy := gridAxis (limits 1).1 (limits 1).2 step
  let gz := gridAxis (limits 2).1 (limits 2).2 step
  gy.flatMap fun y => gx.flatMap fun x => gz.map fun z => ![x, y, z]

/-- The three sample accumulators of the Calibration object
(calibrate.py lines 30-32): measured_pts, observed_pts, observed_pix. -/
structure CalibState where
  measured_pts : List (Fin 3 → ℚ)
  observed_pts : List (Fin 3 → ℚ)
  observed_pix : List (Fin 2 → ℤ)
deriving DecidableEq

/-- The per-grid-point sensing environment: the outcome of
cv2.findChessboardCorners plus the depth image lookup (calibrate.py lines
137-144).  `pix` is the rounded integer fiducial-centre pixel and `depth` the
depth image value at that pixel. -/
structure Detection where
  found : Bool
  pix : Fin 2 → ℤ
  depth : ℚ

/-- One iteration of the collecting loop (calibrate.py lines 123-166):
if the checkerboard was found, read the depth at the fiducial pixel, back-
project x and y, discard the sample when the depth is exactly zero
(`if checkerboard_z == 0: continue`), otherwise append the observed point
[x, y, z], the measured point tool_position + checkerboard_offset_from_tool,
and the pixel, to the three accumulators. -/
def collectStep (intr : Mat3 ℚ) (offset : Fin 3 → ℚ) (s : CalibState)
    (tool : Fin 3 → ℚ) (d : Detection) : CalibState :=
  if d.found then
    let checkerboard_z : ℚ := d.depth
    let checkerboard_x := ((d.pix 0 : ℚ) - intr 0 2) * (checkerboard_z / intr 0 0)
    let checkerboard_y := ((d.pix 1 : ℚ) - intr 1 2) * (checkerboard_z / intr 1 1)
    if checkerboard_z = 0 then s
    else
      { measured_pts := s.measured_pts ++ [fun i => tool i + offset i]
        observed_pts := s.observed_pts ++ [![checkerboard_x, checkerboard_y, checkerboard_z]]
        observed_pix := s.observed_pix ++ [d.pix] }
  else s

/-- The whole collecting loop: fold `collectStep` over the grid points paired
with their sensing outcomes. -/
def collectRun (intr : Mat3 ℚ) (offset : Fin 3 → ℚ)
    (steps : List ((Fin 3 → ℚ) × Detection)) (s : CalibState) : CalibState :=
  steps.foldl (fun st pd => collectStep intr offset st pd.1 pd.2) s

/-- The state with all three accumulators empty (calibrate.py lines 30-32). -/
def emptyState : CalibState := ⟨[], [], []⟩

/-- What the session does right after the collecting loop.  The constructor
`fatalInsufficientSamples` expresses the vocabulary of the specification's
error taxonomy; the code path below never produces it. -/
inductive PostCollectOutcome where
  | fatalInsufficientSamples : PostCollectOutcome
  | optimizerInvoked (n_samples : ℕ) (z_init : ℚ) : PostCollectOutcome
deriving DecidableEq

/-- calibrate.py lines 171-179: the run method converts the accumulators to
arrays and unconditionally calls optimize.minimize(self._get_rigid_transform_error,
1, method=Nelder-Mead).  There is no check on the number of collected samples
between the loop and the optimizer call. -/
def run_post_collect (s : CalibState) : PostCollectOutcome :=
  PostCollectOutcome.optimizerInvoked s.measured_pts.length 1

/-- The measured_pts accumulator viewed as the N x 3 array
np.asarray(self.measured_pts) (calibrate.py line 171). -/
noncomputable def stateMeasured (s : CalibState) :
    Matrix (Fin s.measured_pts.length) (Fin 3) ℝ :=
  Matrix.of fun r i => ((s.measured_pts.get r) i : ℝ)

/-- The observed_pts accumulator as an array, indexed by the sample number
(rows beyond the list length, which never occur in an aligned state, read 0). -/
noncomputable def stateObserved (s : CalibState) :
    Matrix (Fin s.measured_pts.length) (Fin 3) ℝ :=
  Matrix.of fun r i => ((s.observed_pts.getD (r : ℕ) (fun _ => 0)) i : ℝ)

/-- The observed_pix accumulator as an array, indexed by the sample number. -/
noncomputable def statePix (s : CalibState) :
    Matrix (Fin s.measured_pts.length) (Fin 2) ℝ :=
  Matrix.of fun r i => ((s.observed_pix.getD (r : ℕ) (fun _ => 0)) i : ℝ)

/-- `self._get_rigid_transform_error(z_scale)` on the object state. -/
noncomputable def objectiveOfState (svd : SvdOracle ℝ) (intr : Mat3 ℝ) (s : CalibState)
    (z_scale : ℝ) : ℝ :=
  get_rigid_transform_error svd intr (stateMeasured s) (stateObserved s) (statePix s) z_scale

/-- `_get_rigid_transform_error` as a state transformer: the method body
(calibrate.py lines 54-78) performs no assignment to any attribute of self
(the in-place numpy updates `t.shape = (3, 1)` and `Vt[2, :] *= -1` touch
method-local arrays only), so the post-state has exactly the fields of the
pre-state. -/
noncomputable def get_rigid_transform_error_run (svd : SvdOracle ℝ) (intr : Mat3 ℝ)
    (s : CalibState) (z_scale : ℝ) : ℝ × CalibState :=
  (objectiveOfState svd intr s z_scale,
   { measured_pts := s.measured_pts
     observed_pts := s.observed_pts
     observed_pix := s.observed_pix })

/-- calibrate.py lines 171-187, the persisting step of run() on the
array-shaped data produced by np.asarray at lines 171-173: the local variable
world2camera is set to np.eye(4) (line 174); line 185 calls
self._get_rigid_transform_error(camera_depth_offset) and discards its result
(the world2camera built inside the method is a method-local name, not an
attribute); line 186 then saves camera_pose = np.linalg.inv(world2camera). -/
noncomputable def persistPhase {n : ℕ} (svd : SvdOracle ℝ) (intr : Mat3 ℝ)
    (measured obs : Matrix (Fin n) (Fin 3) ℝ) (pix : Matrix (Fin n) (Fin 2) ℝ)
    (camera_depth_offset : ℝ) : Matrix (Fin 4) (Fin 4) ℝ :=
  let world2camera : Matrix (Fin 4) (Fin 4) ℝ := 1
  let _rmse := get_rigid_transform_error svd intr measured obs pix camera_depth_offset
  world2camera⁻¹

/-- Index alignment of the three sample accumulators: equal lengths. -/
def aligned (s : CalibState) : Prop :=
  s.measured_pts.length = s.observed_pts.length ∧
  s.measured_pts.length = s.observed_pix.length

/-- Modelled from the spec: the pinhole back-projection exactly as stated in
the DepthScaleObjective contract, x = (px - cx) * (z * zScale) / fx,
y = (py - cy) * (z * zScale) / fy, z = z * zScale.  Used to compare the
source's back-projection block against the specification's formula. -/
def specBackproject {n : ℕ} (intr : Mat3 K) (pix : Matrix (Fin n) (Fin 2) K)
    (obs : Matrix (Fin n) (Fin 3) K) (z_scale : K) : Matrix (Fin n) (Fin 3) K :=
  Matrix.of fun r i =>
    if i = 0 then (pix r 0 - intr 0 2) * (obs r 2 * z_scale) / intr 0 0
    else if i = 1 then (pix r 1 - intr 1 2) * (obs r 2 * z_scale) / intr 1 1
    else obs r 2 * z_scale

/-- Modelled from the spec: the round-trip construction B = R0 * A + t0 of
the transform round-trip property, applied row-wise to a point set. -/
def specTransformed {n : ℕ} (R0 : Mat3 K) (t0 : Fin 3 → K)
    (A : Matrix (Fin n) (Fin 3) K) : Matrix (Fin n) (Fin 3) K :=
  Matrix.of fun r i => R0.mulVec (A r) i + t0 i

/-- Concrete six-sample data for exhibiting the persisting-step defect:
measured points at the six axis unit vectors; pixels and depths whose
back-projection at depth scale 1 under `egIntr` is the measured set
translated by (0, 0, 10). -/
noncomputable def egMeasured : Matrix (Fin 6) (Fin 3) ℝ :=
  !![1, 0, 0; -1, 0, 0; 0, 1, 0; 0, -1, 0; 0, 0, 1; 0, 0, -1]

/-- Observed points of the example session; only column 2 (the raw depth) is
read by the objective. -/
noncomputable def egObserved : Matrix (Fin 6) (Fin 3) ℝ :=
  !![0, 0, 10; 0, 0, 10; 0, 0, 10; 0, 0, 10; 0, 0, 11; 0, 0, 9]

/-- Observed pixels of the example session. -/
noncomputable def egPix : Matrix (Fin 6) (Fin 2) ℝ :=
  !![1, 0; -1, 0; 0, 1; 0, -1; 0, 0; 0, 0]

/-- Example intrinsics: fx = fy = 10, cx = cy = 0. -/
noncomputable def egIntr : Mat3 ℝ := !![10, 0, 0; 0, 10, 0; 0, 0, 1]

/-- An oracle whose value is the genuine SVD (1, (2,2,2), 1) of the
cross-covariance 2*I arising from the example data. -/
noncomputable def egSvd : SvdOracle ℝ := fun _ => (1, ![2, 2, 2], 1)

/-- The defining properties of a genuine (numpy-convention) singular value
decomposition H = U * diag d * Vt: U and Vt orthogonal, singular values
nonnegative and sorted in descending order. -/
structure IsSVD (H U : Mat3 ℝ) (d : Fin 3 → ℝ) (Vt : Mat3 ℝ) : Prop where
  hU : U * Uᵀ = 1
  hV : Vt * Vtᵀ = 1
  hdec : H = U * Matrix.diagonal d * Vt
  hnn : ∀ i, 0 ≤ d i
  hsorta : d 1 ≤ d 0
  hsortb : d 2 ≤ d 1

/-- Negating the third row is left multiplication by diag(1, 1, -1). -/
lemma negRow2_eq_diag_mul (M : Mat3 K) :
    negRow2 M = Matrix.diagonal ![1, 1, -1] * M := by
  ext i j
  fin_cases i <;>
    simp [negRow2, Matrix.diagonal_mul, Matrix.of_apply, neg_mul]

/-- The determinant flips sign when the third row is negated. -/
lemma det_negRow2 (M : Mat3 K) : (negRow2 M).det = -M.det := by
  rw [negRow2_eq_diag_mul, Matrix.det_mul, Matrix.det_diagonal]
  simp [Fin.prod_univ_three]

/-- An orthogonal matrix has determinant 1 or -1. -/
lemma det_eq_one_or_neg_one_of_orthogonal {M : Mat3 K} (h : M * Mᵀ = 1) :
    M.det = 1 ∨ M.det = -1 := by
  have h1 : M.det * M.det = 1 := by
    have := congrArg Matrix.det h
    rwa [Matrix.det_mul, Matrix.det_transpose, Matrix.det_one] at this
  exact mul_self_eq_one_iff.mp h1

/-- C10: the estimator's translation maps the centroid of A onto the centroid
of B.  Since t is constructed as (-R) @ centroid(A) + centroid(B), the
identity R.mulVec(centroid A) + t = centroid B holds for every oracle output,
in both the reflection-corrected and uncorrected branches, for every pair of
equal-length point sets (in particular all N >= 1). -/
theorem C10_centroid_to_centroid {n : ℕ} (svd : SvdOracle K)
    (A B : Matrix (Fin n) (Fin 3) K) :
    (get_rigid_transform svd A B).1.mulVec (centroid A) +
      (get_rigid_transform svd A B).2 = centroid B := by
  simp only [get_rigid_transform, Matrix.neg_mulVec]
  abel

/-- C4: whenever the oracle returns orthogonal factors U and Vt (as
np.linalg.svd does), the rotation returned by `_get_rigid_transform` has
determinant exactly +1: if the raw candidate R = Vt.T @ U.T has negative
determinant, the third row of Vt is negated and R recomputed, which flips the
sign of the determinant. -/
theorem C4_det_plus_one {n : ℕ} (svd : SvdOracle K) (A B : Matrix (Fin n) (Fin 3) K)
    (hU : (svd (covH A B)).1 * (svd (covH A B)).1ᵀ = 1)
    (hV : (svd (covH A B)).2.2 * (svd (covH A B)).2.2ᵀ = 1) :
    (get_rigid_transform svd A B).1.det = 1 := by
  simp only [get_rigid_transform]
  set U := (svd (covH A B)).1 with hUdef
  set Vt := (svd (covH A B)).2.2 with hVdef
  have hdR1 : (Vtᵀ * Uᵀ).det = Vt.det * U.det := by
    rw [Matrix.det_mul, Matrix.det_transpose, Matrix.det_transpose]
  have hdU := det_eq_one_or_neg_one_of_orthogonal hU
  have hdV := det_eq_one_or_neg_one_of_orthogonal hV
  by_cases hneg : (Vtᵀ * Uᵀ).det < 0
  · simp only [hneg, if_pos]
    have : ((negRow2 Vt)ᵀ * Uᵀ).det = -(Vt.det * U.det) := by
      rw [Matrix.det_mul, Matrix.det_transpose, Matrix.det_transpose, det_negRow2,
        neg_mul]
    rw [this]
    rw [hdR1] at hneg
    rcases hdU with h1 | h1 <;> rcases hdV with h2 | h2 <;>
      rw [h1, h2] at hneg ⊢ <;> norm_num at hneg ⊢
  · simp only [hneg, if_neg, not_false_iff]
    rw [hdR1] at hneg ⊢
    rcases hdU with h1 | h1 <;> rcases hdV with h2 | h2 <;>
      rw [h1, h2] at hneg ⊢ <;> norm_num at hneg ⊢

/-- diag(1, 1, -1) squares to the identity. -/
lemma diagD_mul_diagD :
    (Matrix.diagonal ![1, 1, -1] : Mat3 K) * Matrix.diagonal ![1, 1, -1] = 1 := by
  rw [Matrix.diagonal_mul_diagonal]
  have h : (fun i => (![1, 1, -1] : Fin 3 → K) i * ![1, 1, -1] i) = fun _ => (1 : K) := by
    funext i
    fin_cases i <;> norm_num
  rw [h]
  exact Matrix.diagonal_one

/-- diag(1, 1, -1) has determinant -1. -/
lemma detD : (Matrix.diagonal ![1, 1, -1] : Mat3 K).det = -1 := by
  rw [Matrix.det_diagonal]
  simp [Fin.prod_univ_three]

/-- Orthogonality of diag(1, 1, -1), used by the C4 witness. -/
lemma diag_one_one_negone_orthogonal :
    (Matrix.diagonal ![1, 1, -1] : Mat3 ℚ) * (Matrix.diagonal ![1, 1, -1] : Mat3 ℚ)ᵀ = 1 := by
  rw [Matrix.diagonal_transpose]
  exact diagD_mul_diagD

/-- Witness for C4 at a concrete reflective input over ℚ: the oracle returns
U = 1 and Vt = diag(1, 1, -1) (both orthogonal), the raw candidate is a
reflection, and the corrected rotation has determinant +1. -/
theorem C4_det_plus_one_witness :
    ((fun _ => ((1 : Mat3 ℚ), (![1, 1, 1] : Fin 3 → ℚ),
        Matrix.diagonal ![1, 1, -1]) : SvdOracle ℚ) (covH (0 : Matrix (Fin 3) (Fin 3) ℚ) 0)).1 *
      ((fun _ => ((1 : Mat3 ℚ), (![1, 1, 1] : Fin 3 → ℚ),
        Matrix.diagonal ![1, 1, -1]) : SvdOracle ℚ) (covH (0 : Matrix (Fin 3) (Fin 3) ℚ) 0)).1ᵀ = 1 ∧
    (get_rigid_transform
      (fun _ => ((1 : Mat3 ℚ), (![1, 1, 1] : Fin 3 → ℚ), Matrix.diagonal ![1, 1, -1]))
      (0 : Matrix (Fin 3) (Fin 3) ℚ) 0).1.det = 1 :=
  ⟨by simp,
   C4_det_plus_one
     (fun _ => ((1 : Mat3 ℚ), (![1, 1, 1] : Fin 3 → ℚ), Matrix.diagonal ![1, 1, -1]))
     (0 : Matrix (Fin 3) (Fin 3) ℚ) 0 (by simp)
     (by simpa using diag_one_one_negone_orthogonal)⟩

/-- C9: `_get_rigid_transform_error` mutates no attribute of the session
object: the post-state equals the pre-state, and re-evaluating at the same
z_scale from the post-state returns the same value. -/
theorem C9_objective_pure (svd : SvdOracle ℝ) (intr : Mat3 ℝ) (s : CalibState) (z : ℝ) :
    (get_rigid_transform_error_run svd intr s z).2 = s ∧
    (get_rigid_transform_error_run svd intr s z).1 =
      (get_rigid_transform_error_run svd intr
        ((get_rigid_transform_error_run svd intr s z).2) z).1 :=
  ⟨rfl, rfl⟩

/-- A single collecting-loop iteration either appends one element to each of
the three accumulators or leaves the state unchanged. -/
lemma collectStep_cases (intr : Mat3 ℚ) (offset : Fin 3 → ℚ) (s : CalibState)
    (tool : Fin 3 → ℚ) (d : Detection) :
    collectStep intr offset s tool d = s ∨
    ∃ m o p, collectStep intr offset s tool d =
      { measured_pts := s.measured_pts ++ [m]
        observed_pts := s.observed_pts ++ [o]
        observed_pix := s.observed_pix ++ [p] } := by
  cases hf : d.found with
  | false => left; simp [collectStep, hf]
  | true =>
    by_cases hz : d.depth = 0
    · left; simp [collectStep, hf, hz]
    · right
      exact ⟨fun i => tool i + offset i,
        ![((d.pix 0 : ℚ) - intr 0 2) * (d.depth / intr 0 0),
          ((d.pix 1 : ℚ) - intr 1 2) * (d.depth / intr 1 1), d.depth],
        d.pix, by simp [collectStep, hf, hz]⟩

/-- One iteration preserves index alignment of the accumulators. -/
lemma aligned_collectStep (intr : Mat3 ℚ) (offset : Fin 3 → ℚ) (s : CalibState)
    (tool : Fin 3 → ℚ) (d : Detection) (h : aligned s) :
    aligned (collectStep intr offset s tool d) := by
  rcases collectStep_cases intr offset s tool d with heq | ⟨m, o, p, heq⟩
  · rwa [heq]
  · rw [heq]
    rcases h with ⟨h1, h2⟩
    simp only [aligned, List.length_append, List.length_singleton]
    omega

/-- The whole collecting loop preserves index alignment. -/
lemma aligned_collectRun (intr : Mat3 ℚ) (offset : Fin 3 → ℚ)
    (steps : List ((Fin 3 → ℚ) × Detection)) (s : CalibState) (h : aligned s) :
    aligned (collectRun intr offset steps s) := by
  induction steps generalizing s with
  | nil => exact h
  | cons pd rest ih =>
    have hstep := aligned_collectStep intr offset s pd.1 pd.2 h
    simpa [collectRun, List.foldl_cons] using ih _ hstep

/-- C8: after every iteration of the collecting loop the three accumulators
measured_pts, observed_pts and observed_pix have equal length (the loop starts
from the empty state and each iteration appends one element to all three, or
none to any). -/
theorem C8_index_alignment :
    (∀ (intr : Mat3 ℚ) (offset : Fin 3 → ℚ) (steps : List ((Fin 3 → ℚ) × Detection)),
      aligned (collectRun intr offset steps emptyState)) ∧
    (∀ (intr : Mat3 ℚ) (offset : Fin 3 → ℚ) (s : CalibState) (tool : Fin 3 → ℚ)
      (d : Detection),
      collectStep intr offset s tool d = s ∨
      ∃ m o p, collectStep intr offset s tool d =
        { measured_pts := s.measured_pts ++ [m]
          observed_pts := s.observed_pts ++ [o]
          observed_pix := s.observed_pix ++ [p] }) :=
  ⟨fun intr offset steps =>
    aligned_collectRun intr offset steps emptyState ⟨rfl, rfl⟩,
   collectStep_cases⟩

/-- Any observed point appended by a collecting-loop iteration has nonzero
third component, hence the property "every stored observed point has nonzero
depth" is preserved by one iteration. -/
lemma observed_depth_ne_zero_collectStep (intr : Mat3 ℚ) (offset : Fin 3 → ℚ)
    (s : CalibState) (tool : Fin 3 → ℚ) (d : Detection)
    (h : ∀ q ∈ s.observed_pts, q 2 ≠ 0) :
    ∀ q ∈ (collectStep intr offset s tool d).observed_pts, q 2 ≠ 0 := by
  intro q hq
  cases hf : d.found with
  | false =>
    simp [collectStep, hf] at hq
    exact h q hq
  | true =>
    by_cases hz : d.depth = 0
    · simp [collectStep, hf, hz] at hq
      exact h q hq
    · simp [collectStep, hf, hz] at hq
      rcases hq with hq | hq
      · exact h q hq
      · subst hq
        exact hz

/-- The loop-wide version of the preceding invariant. -/
lemma observed_depth_ne_zero_collectRun (intr : Mat3 ℚ) (offset : Fin 3 → ℚ)
    (steps : List ((Fin 3 → ℚ) × Detection)) (s : CalibState)
    (h : ∀ q ∈ s.observed_pts, q 2 ≠ 0) :
    ∀ q ∈ (collectRun intr offset steps s).observed_pts, q 2 ≠ 0 := by
  induction steps generalizing s with
  | nil => exact h
  | cons pd rest ih =>
    have hstep := observed_depth_ne_zero_collectStep intr offset s pd.1 pd.2 h
    simpa [collectRun, List.foldl_cons] using ih _ hstep

/-- C6: every observed point retained by the collecting loop has nonzero
depth component; an iteration whose fiducial detection failed leaves the
accumulators unchanged, and so does an iteration whose depth reading at the
fiducial pixel is exactly zero. -/
theorem C6_zero_depth_discarded :
    (∀ (intr : Mat3 ℚ) (offset : Fin 3 → ℚ) (steps : List ((Fin 3 → ℚ) × Detection)),
      ∀ q ∈ (collectRun intr offset steps emptyState).observed_pts, q 2 ≠ 0) ∧
    (∀ (intr : Mat3 ℚ) (offset : Fin 3 → ℚ) (s : CalibState) (tool : Fin 3 → ℚ)
      (d : Detection), d.found = false → collectStep intr offset s tool d = s) ∧
    (∀ (intr : Mat3 ℚ) (offset : Fin 3 → ℚ) (s : CalibState) (tool : Fin 3 → ℚ)
      (d : Detection), d.depth = 0 → collectStep intr offset s tool d = s) := by
  refine ⟨fun intr offset steps =>
    observed_depth_ne_zero_collectRun intr offset steps emptyState (by simp [emptyState]),
    fun intr offset s tool d hf => by simp [collectStep, hf],
    fun intr offset s tool d hz => ?_⟩
  cases hf : d.found with
  | false => simp [collectStep, hf]
  | true => simp [collectStep, hf, hz]

/-- Witness for C6 at concrete inputs: a successful detection with depth 5 is
retained (and its stored depth is nonzero), a failed detection is a no-op, and
a zero-depth detection is a no-op. -/
theorem C6_zero_depth_discarded_witness :
    ((![0, 0, 5] : Fin 3 → ℚ) ∈
      (collectRun 1 0 [(fun _ => 0, ⟨true, fun _ => 0, 5⟩)] emptyState).observed_pts ∧
      (![0, 0, 5] : Fin 3 → ℚ) 2 ≠ 0) ∧
    collectStep 1 0 emptyState (fun _ => 0) ⟨false, fun _ => 0, 7⟩ = emptyState ∧
    collectStep 1 0 emptyState (fun _ => 0) ⟨true, fun _ => 0, 0⟩ = emptyState :=
  ⟨⟨by simp [collectRun, collectStep, emptyState, Matrix.one_apply],
    C6_zero_depth_discarded.1 1 0 [(fun _ => 0, ⟨true, fun _ => 0, 5⟩)] _
      (by simp [collectRun, collectStep, emptyState, Matrix.one_apply])⟩,
   C6_zero_depth_discarded.2.1 1 0 emptyState (fun _ => 0) ⟨false, fun _ => 0, 7⟩ rfl,
   C6_zero_depth_discarded.2.2 1 0 emptyState (fun _ => 0) ⟨true, fun _ => 0, 0⟩ rfl⟩

/-- A collecting loop in which every fiducial detection fails leaves the
accumulators unchanged. -/
lemma collectRun_all_failed (intr : Mat3 ℚ) (offset : Fin 3 → ℚ)
    (steps : List ((Fin 3 → ℚ) × Detection)) (s : CalibState) :
    (∀ pd ∈ steps, pd.2.found = false) → collectRun intr offset steps s = s := by
  induction steps generalizing s with
  | nil => intro _; rfl
  | cons pd rest ih =>
    intro h
    have hf : pd.2.found = false := h pd (List.mem_cons_self pd rest)
    have hstep : collectStep intr offset s pd.1 pd.2 = s := by
      simp [collectStep, hf]
    calc collectRun intr offset (pd :: rest) s
        = collectRun intr offset rest (collectStep intr offset s pd.1 pd.2) := rfl
      _ = collectRun intr offset rest s := by rw [hstep]
      _ = s := ih s fun x hx => h x (List.mem_cons_of_mem pd hx)

/-- C2 is violated by the code: running the session over a concrete grid
(bounds [0,1] on each axis, step 1, hence 8 grid points) in an environment
where fiducial detection fails at every grid point collects 0 < 3 samples,
yet the post-collection phase unconditionally invokes the 1-D optimizer and
never surfaces an insufficient-samples error. -/
theorem C2_optimizer_invoked_without_sample_check :
    run_post_collect
      (collectRun 1 0
        ((generate_grid (fun _ => (0, 1)) 1).map fun p => (p, ⟨false, fun _ => 0, 0⟩))
        emptyState) = PostCollectOutcome.optimizerInvoked 0 1 ∧
    (0 : ℕ) < 3 ∧
    run_post_collect
      (collectRun 1 0
        ((generate_grid (fun _ => (0, 1)) 1).map fun p => (p, ⟨false, fun _ => 0, 0⟩))
        emptyState) ≠ PostCollectOutcome.fatalInsufficientSamples := by
  have hfail : ∀ pd ∈ (generate_grid (fun _ => (0, 1)) 1).map
      (fun p => (p, (⟨false, fun _ => 0, 0⟩ : Detection))), pd.2.found = false := by
    intro pd hpd
    rcases List.mem_map.mp hpd with ⟨p, _, rfl⟩
    rfl
  have hrun := collectRun_all_failed 1 0 _ emptyState hfail
  rw [hrun]
  exact ⟨rfl, by norm_num, by decide⟩

/-- The source's back-projection block equals the specification's pinhole
formula: the source computes (px - cx) * (z * zScale / fx), the specification
writes (px - cx) * (z * zScale) / fx; these agree by mul_div_assoc. -/
lemma new_observed_pts_eq_spec {n : ℕ} (intr : Mat3 K) (pix : Matrix (Fin n) (Fin 2) K)
    (obs : Matrix (Fin n) (Fin 3) K) (z_scale : K) :
    new_observed_pts intr pix obs z_scale = specBackproject intr pix obs z_scale := by
  ext r i
  fin_cases i <;> simp [new_observed_pts, specBackproject, mul_div_assoc]

/-- The residual sum of `_get_rigid_transform_error`, written sample-wise:
the (r, i) entry of transpose(R @ measuredᵀ + tile t) is (R.mulVec mᵣ + t) i. -/
lemma sseOf_eq_sum {n : ℕ} (R : Mat3 K) (t : Fin 3 → K)
    (measured newObs : Matrix (Fin n) (Fin 3) K) :
    sseOf R t measured newObs =
      ∑ r, ∑ i, ((R.mulVec (measured r) + t) i - newObs r i) ^ 2 := by
  unfold sseOf registered_pts
  apply Finset.sum_congr rfl
  intro r _
  apply Finset.sum_congr rfl
  intro i _
  simp [Matrix.transpose_apply, Matrix.add_apply, Matrix.mul_apply, Matrix.mulVec,
    dotProduct]

/-- C7: the depth-scale objective equals the RMSE of the specification's
formula: back-project every sample by the pinhole formula at the candidate
z-scale, fit the rigid transform, and take
sqrt(sum over samples and axes of squared residuals / N); and the returned
value is always nonnegative. -/
theorem C7_objective_formula {n : ℕ} (svd : SvdOracle ℝ) (intr : Mat3 ℝ)
    (measured obs : Matrix (Fin n) (Fin 3) ℝ) (pix : Matrix (Fin n) (Fin 2) ℝ)
    (z_scale : ℝ) (_hn : 3 ≤ n) (_hfx : intr 0 0 ≠ 0) (_hfy : intr 1 1 ≠ 0) :
    0 ≤ get_rigid_transform_error svd intr measured obs pix z_scale ∧
    get_rigid_transform_error svd intr measured obs pix z_scale =
      Real.sqrt ((∑ r, ∑ i,
        (((get_rigid_transform svd measured (specBackproject intr pix obs z_scale)).1.mulVec
            (measured r) +
          (get_rigid_transform svd measured (specBackproject intr pix obs z_scale)).2) i -
          specBackproject intr pix obs z_scale r i) ^ 2) / (n : ℝ)) := by
  constructor
  · exact Real.sqrt_nonneg _
  · simp only [get_rigid_transform_error]
    rw [new_observed_pts_eq_spec, sseOf_eq_sum]

/-- Witness for C7 at a concrete input (n = 3, zero data, identity intrinsics,
an oracle returning U = Vt = 1). -/
theorem C7_objective_formula_witness :
    0 ≤ get_rigid_transform_error (fun _ => (1, fun _ => 0, 1)) 1
      (0 : Matrix (Fin 3) (Fin 3) ℝ) 0 0 1 :=
  (C7_objective_formula (fun _ => (1, fun _ => 0, 1)) 1 0 0 0 1 (by norm_num)
    (by simp [Matrix.one_apply]) (by simp [Matrix.one_apply])).1

/-- Element j of np.linspace(lo, hi, num), for j < num. -/
lemma linspace_getD {lo hi : ℚ} {num j : ℕ} (hj : j < num) :
    (linspace lo hi num).getD j 0 =
      if num ≤ 1 then lo else lo + (hi - lo) * (j : ℚ) / ((num : ℚ) - 1) := by
  unfold linspace
  rw [List.getD_eq_getElem?_getD, List.getElem?_map, List.getElem?_range hj]
  rfl

/-- np.linspace returns exactly num values. -/
lemma linspace_length (lo hi : ℚ) (num : ℕ) : (linspace lo hi num).length = num := by
  simp [linspace]

/-- Under valid bounds and a positive step, the per-axis point count is
1 + floor((hi - lo) / step). -/
lemma numPts_eq {lo hi step : ℚ} (hlt : lo < hi) (hstep : 0 < step) :
    numPts lo hi step = 1 + (⌊(hi - lo) / step⌋).toNat := by
  unfold numPts
  have hx : 0 < (hi - lo) / step := div_pos (by linarith) hstep
  have hfl : (0 : ℤ) ≤ ⌊(hi - lo) / step⌋ := Int.floor_nonneg.mpr (le_of_lt hx)
  have h1 : (1 : ℚ) + (hi - lo) / step = (hi - lo) / step + 1 := by ring
  rw [h1]
  have h2 : ⌊(hi - lo) / step + (1 : ℤ)⌋ = ⌊(hi - lo) / step⌋ + 1 := Int.floor_add_int _ 1
  push_cast at h2
  rw [h2]
  omega

/-- C3, amended: for every axis with min < max and positive step, the grid
axis is the uniformly spaced sequence of exactly 1 + floor((max-min)/step)
points starting at min; whenever it has at least two points its final point
is exactly max (contrary to the original claim, the final point falls short
of max only in the degenerate single-point case, which happens exactly when
max - min < step); consecutive points differ by the uniform spacing
(max-min)/(count-1); the grid is the full Cartesian product of the three
axis sequences in the fixed order y-outermost, then x, then z; and
generation is deterministic. -/
theorem C3_grid_amended (limits : Fin 3 → ℚ × ℚ) (step : ℚ)
    (hlt : ∀ i, (limits i).1 < (limits i).2) (hstep : 0 < step) :
    (∀ i : Fin 3,
      (gridAxis (limits i).1 (limits i).2 step).length =
        1 + (⌊((limits i).2 - (limits i).1) / step⌋).toNat ∧
      (gridAxis (limits i).1 (limits i).2 step).getD 0 0 = (limits i).1 ∧
      (2 ≤ (gridAxis (limits i).1 (limits i).2 step).length →
        (gridAxis (limits i).1 (limits i).2 step).getD
          ((gridAxis (limits i).1 (limits i).2 step).length - 1) 0 = (limits i).2) ∧
      (∀ j : ℕ, j + 1 < (gridAxis (limits i).1 (limits i).2 step).length →
        (gridAxis (limits i).1 (limits i).2 step).getD (j + 1) 0 -
          (gridAxis (limits i).1 (limits i).2 step).getD j 0 =
        ((limits i).2 - (limits i).1) /
          (((gridAxis (limits i).1 (limits i).2 step).length : ℚ) - 1)) ∧
      ((gridAxis (limits i).1 (limits i).2 step).length = 1 ↔
        (limits i).2 - (limits i).1 < step)) ∧
    (generate_grid limits step =
      (gridAxis (limits 1).1 (limits 1).2 step).flatMap fun y =>
        (gridAxis (limits 0).1 (limits 0).2 step).flatMap fun x =>
          (gridAxis (limits 2).1 (limits 2).2 step).map fun z => ![x, y, z]) ∧
    generate_grid limits step = generate_grid limits step := by
  refine ⟨fun i => ?_, rfl, rfl⟩
  set lo := (limits i).1 with hlo
  set hi := (limits i).2 with hhi
  have hax : (gridAxis lo hi step).length = numPts lo hi step := by
    simp [gridAxis, linspace_length]
  have hnum : numPts lo hi step = 1 + (⌊(hi - lo) / step⌋).toNat :=
    numPts_eq (hlt i) hstep
  have hpos : 1 ≤ numPts lo hi step := by omega
  refine ⟨by rw [hax, hnum], ?_, ?_, ?_, ?_⟩
  · -- first element is lo
    have h0 : (0 : ℕ) < numPts lo hi step := hpos
    rw [gridAxis, linspace_getD h0]
    by_cases h1 : numPts lo hi step ≤ 1
    · simp [h1]
    · simp [h1]
  · -- last element is hi when there are at least two points
    intro h2
    rw [hax] at h2
    have hlast : numPts lo hi step - 1 < numPts lo hi step := by omega
    rw [hax, gridAxis, linspace_getD hlast]
    have h1 : ¬ numPts lo hi step ≤ 1 := by omega
    rw [if_neg h1]
    have hc : ((numPts lo hi step - 1 : ℕ) : ℚ) = ((numPts lo hi step : ℕ) : ℚ) - 1 := by
      have : 1 ≤ numPts lo hi step := by omega
      push_cast [Nat.cast_sub this]
      ring
    rw [hc]
    have hne : ((numPts lo hi step : ℕ) : ℚ) - 1 ≠ 0 := by
      have : (2 : ℚ) ≤ ((numPts lo hi step : ℕ) : ℚ) := by
        exact_mod_cast h2
      linarith
    rw [mul_div_assoc, div_self hne, mul_one]
    ring
  · -- uniform spacing
    intro j hj
    rw [hax] at hj
    have hj1 : j + 1 < numPts lo hi step := hj
    have hj0 : j < numPts lo hi step := by omega
    rw [hax, gridAxis, linspace_getD hj1, linspace_getD hj0]
    have h1 : ¬ numPts lo hi step ≤ 1 := by omega
    rw [if_neg h1, if_neg h1]
    have hne : ((numPts lo hi step : ℕ) : ℚ) - 1 ≠ 0 := by
      have : (2 : ℚ) ≤ ((numPts lo hi step : ℕ) : ℚ) := by
        have : 2 ≤ numPts lo hi step := by omega
        exact_mod_cast this
      linarith
    push_cast
    field_simp
    ring
  · -- single-point case iff the span is smaller than the step
    rw [hax, hnum]
    have hx : 0 < (hi - lo) / step := div_pos (by have := hlt i; linarith) hstep
    have hfl : (0 : ℤ) ≤ ⌊(hi - lo) / step⌋ := Int.floor_nonneg.mpr (le_of_lt hx)
    constructor
    · intro h
      have h0 : ⌊(hi - lo) / step⌋ = 0 := by omega
      have hlt1 : (hi - lo) / step < 1 := by
        have := Int.lt_floor_add_one ((hi - lo) / step)
        rw [h0] at this
        simpa using this
      calc hi - lo = (hi - lo) / step * step := by field_simp
        _ < 1 * step := by
            apply mul_lt_mul_of_pos_right hlt1 hstep
        _ = step := one_mul step
    · intro h
      have hlt1 : (hi - lo) / step < 1 := (div_lt_one hstep).mpr h
      have h0 : ⌊(hi - lo) / step⌋ < 1 := by
        exact_mod_cast Int.floor_lt.mpr (by exact_mod_cast hlt1)
      omega

/-- Witness for C3 at bounds [0, 1] per axis and step 1/2: the x axis has
1 + floor(1 / (1/2)) = 3 points. -/
theorem C3_grid_amended_witness :
    (gridAxis (((fun _ => (0, 1)) : Fin 3 → ℚ × ℚ) 0).1
        (((fun _ => (0, 1)) : Fin 3 → ℚ × ℚ) 0).2 (1 / 2)).length =
      1 + (⌊((((fun _ => (0, 1)) : Fin 3 → ℚ × ℚ) 0).2 -
        (((fun _ => (0, 1)) : Fin 3 → ℚ × ℚ) 0).1) / (1 / 2)⌋).toNat :=
  ((C3_grid_amended (fun _ => (0, 1)) (1 / 2) (fun _ => by norm_num) (by norm_num)).1 0).1

/-- C3, counterexample to the original claim: with bounds [0, 3] and step 2
the axis sequence is [0, 3]; the span 3 is not an exact multiple of the step
2, yet the final point equals max = 3 instead of falling short of it. -/
theorem C3_grid_counterexample :
    gridAxis 0 3 2 = [0, 3] ∧
    ((3 : ℚ) - 0) / 2 ≠ ((⌊((3 : ℚ) - 0) / 2⌋ : ℤ) : ℚ) ∧
    (gridAxis 0 3 2).getLast? = some 3 ∧
    ¬ ((3 : ℚ) < 3) := by
  have hfl : ⌊(1 : ℚ) + (3 - 0) / 2⌋ = 2 := by
    rw [Int.floor_eq_iff] <;> norm_num
  have hnum : numPts 0 3 2 = 2 := by
    rw [numPts, hfl]
    rfl
  have haxis : gridAxis 0 3 2 = [0, 3] := by
    rw [gridAxis, hnum, linspace]
    norm_num [List.range_succ]
  refine ⟨haxis, ?_, ?_, by norm_num⟩
  · have h32 : ⌊((3 : ℚ) - 0) / 2⌋ = 1 := by
      rw [Int.floor_eq_iff] <;> norm_num
    rw [h32]
    norm_num
  · rw [haxis]
    rfl

/-- The centroid of B = R0 * A + t0 is R0 * centroid(A) + t0. -/
lemma centroid_specTransformed {n : ℕ} (R0 : Mat3 K) (t0 : Fin 3 → K)
    (A : Matrix (Fin n) (Fin 3) K) (hn : (n : K) ≠ 0) :
    centroid (specTransformed R0 t0 A) = fun i => R0.mulVec (centroid A) i + t0 i := by
  funext i
  unfold centroid specTransformed
  simp only [Matrix.of_apply, Matrix.mulVec, dotProduct]
  have expand : (∑ r : Fin n, ((∑ j, R0 i j * A r j) + t0 i)) =
      (∑ j, R0 i j * ∑ r : Fin n, A r j) + (n : K) * t0 i := by
    rw [Finset.sum_add_distrib, Finset.sum_const, Finset.card_univ, Fintype.card_fin,
      nsmul_eq_mul]
    congr 1
    rw [Finset.sum_comm]
    exact Finset.sum_congr rfl fun j _ => (Finset.mul_sum _ _ _).symm
  rw [expand, add_div, mul_div_cancel_left₀ _ hn]
  congr 1
  rw [Finset.sum_div]
  exact Finset.sum_congr rfl fun j _ => mul_div_assoc _ _ _

/-- Centring B = R0 * A + t0 multiplies the centred A by R0 transposed on the
right (row-vector convention). -/
lemma centered_specTransformed {n : ℕ} (R0 : Mat3 K) (t0 : Fin 3 → K)
    (A : Matrix (Fin n) (Fin 3) K) (hn : (n : K) ≠ 0) :
    centered (specTransformed R0 t0 A) = centered A * R0ᵀ := by
  have hc := centroid_specTransformed R0 t0 A hn
  ext r i
  simp only [centered, Matrix.of_apply, hc, Matrix.mul_apply, Matrix.transpose_apply]
  simp only [specTransformed, Matrix.of_apply, Matrix.mulVec, dotProduct]
  rw [add_sub_add_right_eq_sub, ← Finset.sum_sub_distrib]
  exact Finset.sum_congr rfl fun j _ => by ring

/-- The cross-covariance of A with B = R0 * A + t0 is S * R0 transposed,
where S is the self-covariance of A. -/
lemma covH_specTransformed {n : ℕ} (R0 : Mat3 K) (t0 : Fin 3 → K)
    (A : Matrix (Fin n) (Fin 3) K) (hn : (n : K) ≠ 0) :
    covH A (specTransformed R0 t0 A) = covH A A * R0ᵀ := by
  unfold covH
  rw [centered_specTransformed R0 t0 A hn, Matrix.mul_assoc]

/-- The self-covariance is positive semidefinite. -/
lemma covH_self_posSemidef {n : ℕ} (A : Matrix (Fin n) (Fin 3) ℝ) :
    (covH A A).PosSemidef := by
  have h := Matrix.posSemidef_conjTranspose_mul_self (centered A)
  rwa [Matrix.conjTranspose_eq_transpose_of_trivial] at h

/-- The self-covariance is symmetric. -/
lemma covH_self_transpose {n : ℕ} (A : Matrix (Fin n) (Fin 3) K) :
    (covH A A)ᵀ = covH A A := by
  unfold covH
  rw [Matrix.transpose_mul, Matrix.transpose_transpose]

/-- B = 1 * A + 0 is A itself. -/
lemma specTransformed_one_zero {n : ℕ} (A : Matrix (Fin n) (Fin 3) K) :
    specTransformed 1 0 A = A := by
  ext r i
  simp [specTransformed, Matrix.one_mulVec]

/-- C5: transform round-trip.  For a point set A of N >= 3 points whose
centred self-covariance has at least two nonzero singular values (the
singular-value encoding of "non-collinear": the second-largest singular value
of the centred data is positive exactly when the points do not lie on a
line), a proper rotation R0 (orthogonal, det = +1) and any translation t0,
running `_get_rigid_transform` on (A, R0 * A + t0) with a genuine SVD of the
cross-covariance returns exactly (R0, t0).  The identity special case is
R0 = 1, t0 = 0, B = A. -/
theorem C5_transform_round_trip {n : ℕ} (svd : SvdOracle ℝ)
    (A : Matrix (Fin n) (Fin 3) ℝ) (R0 : Mat3 ℝ) (t0 : Fin 3 → ℝ)
    (U : Mat3 ℝ) (d : Fin 3 → ℝ) (Vt : Mat3 ℝ)
    (hn : 3 ≤ n) (hR0 : R0 * R0ᵀ = 1) (hdetR0 : R0.det = 1)
    (hsvd : svd (covH A (specTransformed R0 t0 A)) = (U, d, Vt))
    (h : IsSVD (covH A (specTransformed R0 t0 A)) U d Vt)
    (hd1 : 0 < d 1) :
    get_rigid_transform svd A (specTransformed R0 t0 A) = (R0, t0) := by
  have hnne : ((n : ℝ)) ≠ 0 := Nat.cast_ne_zero.mpr (by omega)
  have hH : covH A (specTransformed R0 t0 A) = covH A A * R0ᵀ :=
    covH_specTransformed R0 t0 A hnne
  have hUU : Uᵀ * U = 1 := Matrix.mul_eq_one_comm.mp h.hU
  have hVV : Vtᵀ * Vt = 1 := Matrix.mul_eq_one_comm.mp h.hV
  have hR0R0 : R0ᵀ * R0 = 1 := Matrix.mul_eq_one_comm.mp hR0
  have hUSV : covH A A * R0ᵀ = U * Matrix.diagonal d * Vt := by
    rw [← hH]
    exact h.hdec
  -- S * S equals the symmetric square built from U and the singular values
  have hSS : covH A A * covH A A =
      U * (Matrix.diagonal d * Matrix.diagonal d) * Uᵀ := by
    have h1 : (covH A A * R0ᵀ) * (covH A A * R0ᵀ)ᵀ = covH A A * covH A A := by
      rw [Matrix.transpose_mul, Matrix.transpose_transpose, covH_self_transpose]
      calc covH A A * R0ᵀ * (R0 * covH A A)
          = covH A A * (R0ᵀ * (R0 * covH A A)) := by simp only [Matrix.mul_assoc]
        _ = covH A A * ((R0ᵀ * R0) * covH A A) := by rw [Matrix.mul_assoc]
        _ = covH A A * covH A A := by rw [hR0R0, Matrix.one_mul]
    rw [← h1, hUSV, Matrix.transpose_mul, Matrix.transpose_mul,
      Matrix.diagonal_transpose]
    calc U * Matrix.diagonal d * Vt * (Vtᵀ * (Matrix.diagonal d * Uᵀ))
        = U * (Matrix.diagonal d * ((Vt * Vtᵀ) * (Matrix.diagonal d * Uᵀ))) := by
          simp only [Matrix.mul_assoc]
      _ = U * (Matrix.diagonal d * (Matrix.diagonal d * Uᵀ)) := by
          rw [h.hV, Matrix.one_mul]
      _ = U * (Matrix.diagonal d * Matrix.diagonal d) * Uᵀ := by
          simp only [Matrix.mul_assoc]
  -- positive semidefinite square-root uniqueness gives S = U * diag d * Uᵀ
  have hTps : (U * Matrix.diagonal d * Uᵀ).PosSemidef := by
    have hdiag : (Matrix.diagonal d).PosSemidef :=
      Matrix.posSemidef_diagonal_iff.mpr h.hnn
    have hconj := hdiag.mul_mul_conjTranspose_same U
    rwa [Matrix.conjTranspose_eq_transpose_of_trivial] at hconj
  have hSps : (covH A A).PosSemidef := covH_self_posSemidef A
  have hTT : (U * Matrix.diagonal d * Uᵀ) ^ 2 = covH A A ^ 2 := by
    rw [pow_two, pow_two]
    calc (U * Matrix.diagonal d * Uᵀ) * (U * Matrix.diagonal d * Uᵀ)
        = U * (Matrix.diagonal d * ((Uᵀ * U) * (Matrix.diagonal d * Uᵀ))) := by
          simp only [Matrix.mul_assoc]
      _ = U * (Matrix.diagonal d * (Matrix.diagonal d * Uᵀ)) := by
          rw [hUU, Matrix.one_mul]
      _ = U * (Matrix.diagonal d * Matrix.diagonal d) * Uᵀ := by
          simp only [Matrix.mul_assoc]
      _ = covH A A * covH A A := hSS.symm
  have hTS : U * Matrix.diagonal d * Uᵀ = covH A A := hTps.eq_of_sq_eq_sq hSps hTT
  -- cancel U on the left of the two factorizations of H
  have hSV : Matrix.diagonal d * Vt = Matrix.diagonal d * (Uᵀ * R0ᵀ) := by
    have h1 : U * (Matrix.diagonal d * Vt) = U * (Matrix.diagonal d * (Uᵀ * R0ᵀ)) := by
      calc U * (Matrix.diagonal d * Vt)
          = U * Matrix.diagonal d * Vt := by simp only [Matrix.mul_assoc]
        _ = covH A A * R0ᵀ := hUSV.symm
        _ = (U * Matrix.diagonal d * Uᵀ) * R0ᵀ := by rw [hTS]
        _ = U * (Matrix.diagonal d * (Uᵀ * R0ᵀ)) := by simp only [Matrix.mul_assoc]
    have h2 := congrArg (fun M => Uᵀ * M) h1
    simpa only [← Matrix.mul_assoc, hUU, Matrix.one_mul] using h2
  -- rows of Vt with nonzero singular value agree with Uᵀ * R0ᵀ
  have hrow : ∀ i j, d i ≠ 0 → Vt i j = (Uᵀ * R0ᵀ) i j := by
    intro i j hdi
    have hij := Matrix.ext_iff.mpr hSV i j
    rw [Matrix.diagonal_mul, Matrix.diagonal_mul] at hij
    exact mul_left_cancel₀ hdi hij
  have hd0 : d 0 ≠ 0 := ne_of_gt (lt_of_lt_of_le hd1 h.hsorta)
  have hd1ne : d 1 ≠ 0 := ne_of_gt hd1
  -- the alignment matrix M := Vt * (R0 * U); note (Uᵀ * R0ᵀ)ᵀ = R0 * U
  have hWtW : (Uᵀ * R0ᵀ) * (R0 * U) = 1 := by
    calc Uᵀ * R0ᵀ * (R0 * U) = Uᵀ * ((R0ᵀ * R0) * U) := by simp only [Matrix.mul_assoc]
      _ = Uᵀ * U := by rw [hR0R0, Matrix.one_mul]
      _ = 1 := hUU
  have hWW : (R0 * U) * (Uᵀ * R0ᵀ) = 1 := Matrix.mul_eq_one_comm.mp hWtW
  have hMt : (Vt * (R0 * U))ᵀ = (Uᵀ * R0ᵀ) * Vtᵀ := by
    rw [Matrix.transpose_mul, Matrix.transpose_mul]
  have hMMt : (Vt * (R0 * U)) * (Vt * (R0 * U))ᵀ = 1 := by
    rw [hMt]
    calc Vt * (R0 * U) * ((Uᵀ * R0ᵀ) * Vtᵀ)
        = Vt * (((R0 * U) * (Uᵀ * R0ᵀ)) * Vtᵀ) := by simp only [Matrix.mul_assoc]
      _ = Vt * Vtᵀ := by rw [hWW, Matrix.one_mul]
      _ = 1 := h.hV
  have hMtM : (Vt * (R0 * U))ᵀ * (Vt * (R0 * U)) = 1 :=
    Matrix.mul_eq_one_comm.mp hMMt
  have hMrow : ∀ i j, d i ≠ 0 → (Vt * (R0 * U)) i j = (1 : Mat3 ℝ) i j := by
    intro i j hdi
    have h2 : (Vt * (R0 * U)) i j = ((Uᵀ * R0ᵀ) * (R0 * U)) i j := by
      rw [Matrix.mul_apply, Matrix.mul_apply]
      exact Finset.sum_congr rfl fun k _ => by rw [hrow i k hdi]
    rw [h2, hWtW]
  have hM00 : (Vt * (R0 * U)) 0 0 = 1 := by
    rw [hMrow 0 0 hd0, Matrix.one_apply_eq]
  have hM01 : (Vt * (R0 * U)) 0 1 = 0 := by
    rw [hMrow 0 1 hd0, Matrix.one_apply_ne (by decide)]
  have hM02 : (Vt * (R0 * U)) 0 2 = 0 := by
    rw [hMrow 0 2 hd0, Matrix.one_apply_ne (by decide)]
  have hM10 : (Vt * (R0 * U)) 1 0 = 0 := by
    rw [hMrow 1 0 hd1ne, Matrix.one_apply_ne (by decide)]
  have hM11 : (Vt * (R0 * U)) 1 1 = 1 := by
    rw [hMrow 1 1 hd1ne, Matrix.one_apply_eq]
  have hM12 : (Vt * (R0 * U)) 1 2 = 0 := by
    rw [hMrow 1 2 hd1ne, Matrix.one_apply_ne (by decide)]
  have hcol0 : ∑ k, (Vt * (R0 * U)) k 0 * (Vt * (R0 * U)) k 0 = 1 := by
    have hij := Matrix.ext_iff.mpr hMtM 0 0
    rw [Matrix.mul_apply] at hij
    simp only [Matrix.transpose_apply] at hij
    rwa [Matrix.one_apply_eq] at hij
  have hcol1 : ∑ k, (Vt * (R0 * U)) k 1 * (Vt * (R0 * U)) k 1 = 1 := by
    have hij := Matrix.ext_iff.mpr hMtM 1 1
    rw [Matrix.mul_apply] at hij
    simp only [Matrix.transpose_apply] at hij
    rwa [Matrix.one_apply_eq] at hij
  have hM20 : (Vt * (R0 * U)) 2 0 = 0 := by
    rw [Fin.sum_univ_three] at hcol0
    rw [hM00, hM10] at hcol0
    have hsq : (Vt * (R0 * U)) 2 0 * (Vt * (R0 * U)) 2 0 = 0 := by linarith
    exact mul_self_eq_zero.mp hsq
  have hM21 : (Vt * (R0 * U)) 2 1 = 0 := by
    rw [Fin.sum_univ_three] at hcol1
    rw [hM01, hM11] at hcol1
    have hsq : (Vt * (R0 * U)) 2 1 * (Vt * (R0 * U)) 2 1 = 0 := by linarith
    exact mul_self_eq_zero.mp hsq
  have hrow2 : ∑ k, (Vt * (R0 * U)) 2 k * (Vt * (R0 * U)) 2 k = 1 := by
    have hij := Matrix.ext_iff.mpr hMMt 2 2
    rw [Matrix.mul_apply] at hij
    simp only [Matrix.transpose_apply] at hij
    rwa [Matrix.one_apply_eq] at hij
  have hM22sq : (Vt * (R0 * U)) 2 2 * (Vt * (R0 * U)) 2 2 = 1 := by
    rw [Fin.sum_univ_three, hM20, hM21] at hrow2
    linarith
  -- M is the identity or diag(1, 1, -1)
  have hMeq : Vt * (R0 * U) = 1 ∨
      Vt * (R0 * U) = Matrix.diagonal ![1, 1, -1] := by
    rcases mul_self_eq_one_iff.mp hM22sq with h22 | h22
    · left
      ext i j
      fin_cases i <;> fin_cases j <;>
        simp_all [Matrix.one_apply, Matrix.diagonal_apply]
    · right
      ext i j
      fin_cases i <;> fin_cases j <;>
        simp_all [Matrix.one_apply, Matrix.diagonal_apply]
  have hVtM : Vt = (Vt * (R0 * U)) * (Uᵀ * R0ᵀ) := by
    rw [Matrix.mul_assoc, hWW, Matrix.mul_one]
  have hWt : (Uᵀ * R0ᵀ)ᵀ = R0 * U := by
    rw [Matrix.transpose_mul, Matrix.transpose_transpose, Matrix.transpose_transpose]
  have hdetU := det_eq_one_or_neg_one_of_orthogonal h.hU
  have hcB : centroid (specTransformed R0 t0 A) =
      fun i => R0.mulVec (centroid A) i + t0 i :=
    centroid_specTransformed R0 t0 A hnne
  have htfinal : ∀ R : Mat3 ℝ, R = R0 →
      (-R).mulVec (centroid A) + centroid (specTransformed R0 t0 A) = t0 := by
    intro R hR
    subst hR
    funext i
    simp only [Pi.add_apply, Matrix.neg_mulVec, Pi.neg_apply, hcB]
    exact neg_add_cancel_left _ _
  rcases hMeq with hM1 | hMD
  · -- no reflection: Vt = Uᵀ * R0ᵀ and the raw candidate is already R0
    have hVtW : Vt = Uᵀ * R0ᵀ := by
      rw [hVtM, hM1, Matrix.one_mul]
    have hR1 : Vtᵀ * Uᵀ = R0 := by
      rw [hVtW, hWt, Matrix.mul_assoc, h.hU, Matrix.mul_one]
    have hcond : ¬ ((Vtᵀ * Uᵀ).det < 0) := by
      rw [hR1, hdetR0]
      norm_num
    simp only [get_rigid_transform, hsvd]
    rw [if_neg hcond, hR1]
    exact Prod.ext rfl (htfinal R0 rfl)
  · -- reflection case: the det < 0 branch fires and the row negation undoes it
    have hVtDW : Vt = Matrix.diagonal ![1, 1, -1] * (Uᵀ * R0ᵀ) := by
      rw [hVtM, hMD]
    have hnegVt : negRow2 Vt = Uᵀ * R0ᵀ := by
      rw [negRow2_eq_diag_mul, hVtDW, ← Matrix.mul_assoc, diagD_mul_diagD,
        Matrix.one_mul]
    have hdetW : (Uᵀ * R0ᵀ).det = U.det := by
      rw [Matrix.det_mul, Matrix.det_transpose, Matrix.det_transpose, hdetR0, mul_one]
    have hdetVt : Vt.det = -U.det := by
      rw [hVtDW, Matrix.det_mul, detD, hdetW]
      ring
    have hdR1 : (Vtᵀ * Uᵀ).det = -1 := by
      rw [Matrix.det_mul, Matrix.det_transpose, Matrix.det_transpose, hdetVt]
      rcases hdetU with hu | hu <;> rw [hu] <;> norm_num
    have hcond : (Vtᵀ * Uᵀ).det < 0 := by
      rw [hdR1]
      norm_num
    have hR : (negRow2 Vt)ᵀ * Uᵀ = R0 := by
      rw [hnegVt, hWt, Matrix.mul_assoc, h.hU, Matrix.mul_one]
    simp only [get_rigid_transform, hsvd]
    rw [if_pos hcond, hR]
    exact Prod.ext rfl (htfinal R0 rfl)

/-- Self-covariance of the witness point set {(1,0,0), (-1,0,0), (0,1,0),
(0,-1,0)}: its centroid is the origin and its covariance is diag(2, 2, 0). -/
lemma covH_witness_points :
    covH (!![(1:ℝ), 0, 0; -1, 0, 0; 0, 1, 0; 0, -1, 0])
      (!![(1:ℝ), 0, 0; -1, 0, 0; 0, 1, 0; 0, -1, 0]) = Matrix.diagonal ![2, 2, 0] := by
  ext i j
  fin_cases i <;> fin_cases j <;>
    norm_num [covH, centered, centroid, Matrix.mul_apply, Matrix.transpose_apply,
      Fin.sum_univ_four, Fin.sum_univ_three, Matrix.diagonal_apply,
      Matrix.vecHead, Matrix.vecTail, Fin.ext_iff]

/-- Witness for C5 at a concrete input: the four planar points above (three
of them not collinear, second singular value 2 > 0), R0 = 1, t0 = 0, and the
oracle returning the genuine SVD (1, (2, 2, 0), 1) of the covariance
diag(2, 2, 0); the estimator returns exactly (1, 0). -/
theorem C5_transform_round_trip_witness :
    (0 : ℝ) < (![2, 2, 0] : Fin 3 → ℝ) 1 ∧
    get_rigid_transform
      (fun _ => ((1 : Mat3 ℝ), (![2, 2, 0] : Fin 3 → ℝ), (1 : Mat3 ℝ)))
      (!![(1:ℝ), 0, 0; -1, 0, 0; 0, 1, 0; 0, -1, 0])
      (specTransformed 1 0 (!![(1:ℝ), 0, 0; -1, 0, 0; 0, 1, 0; 0, -1, 0])) = (1, 0) :=
  ⟨by norm_num,
   C5_transform_round_trip
     (fun _ => ((1 : Mat3 ℝ), (![2, 2, 0] : Fin 3 → ℝ), (1 : Mat3 ℝ)))
     (!![(1:ℝ), 0, 0; -1, 0, 0; 0, 1, 0; 0, -1, 0]) 1 0 1 ![2, 2, 0] 1
     (by norm_num) (by simp) (by simp) rfl
     ⟨by simp, by simp,
      by
        rw [specTransformed_one_zero, covH_witness_points, Matrix.one_mul,
          Matrix.mul_one],
      by
        intro i
        fin_cases i <;> norm_num,
      by norm_num, by norm_num⟩
     (by norm_num)⟩

/-- Index normalization for goals produced by case analysis on Fin 3. -/
lemma fin3_mk_eq_two (h : (2 : ℕ) < 3) : (⟨2, h⟩ : Fin 3) = 2 := rfl

/-- Index normalization for goals produced by case analysis on Fin 4. -/
lemma fin4_mk_eq_three (h : (3 : ℕ) < 4) : (⟨3, h⟩ : Fin 4) = 3 := rfl

/-- C1 is violated by the code: on the concrete example session, the
persisting step recomputes `_get_rigid_transform_error` at the optimal depth
scale but the recomputed world2camera is a discarded method-local, so the
persisted camera pose is inv(np.eye(4)) = identity; the world2camera actually
recomputed at that scale is the translation by (0, 0, 10), whose inverse is
the translation by (0, 0, -10), which differs from the persisted pose. -/
theorem C1_persisted_pose_ignores_recomputed_transform :
    persistPhase egSvd egIntr egMeasured egObserved egPix 1 = 1 ∧
    world2cameraOf egSvd egMeasured (new_observed_pts egIntr egPix egObserved 1) =
      homog 1 ![0, 0, 10] ∧
    (homog (1 : Mat3 ℝ) ![0, 0, 10])⁻¹ = homog 1 ![0, 0, -10] ∧
    persistPhase egSvd egIntr egMeasured egObserved egPix 1 ≠
      (world2cameraOf egSvd egMeasured (new_observed_pts egIntr egPix egObserved 1))⁻¹ := by
  have hcA : centroid egMeasured = 0 := by
    funext i
    simp only [centroid]
    rw [Fin.sum_univ_six]
    fin_cases i <;>
      norm_num [show egMeasured 0 0 = 1 from rfl, show egMeasured 1 0 = -1 from rfl,
        show egMeasured 2 0 = 0 from rfl, show egMeasured 3 0 = 0 from rfl,
        show egMeasured 4 0 = 0 from rfl, show egMeasured 5 0 = 0 from rfl,
        show egMeasured 0 1 = 0 from rfl, show egMeasured 1 1 = 0 from rfl,
        show egMeasured 2 1 = 1 from rfl, show egMeasured 3 1 = -1 from rfl,
        show egMeasured 4 1 = 0 from rfl, show egMeasured 5 1 = 0 from rfl,
        show egMeasured 0 2 = 0 from rfl, show egMeasured 1 2 = 0 from rfl,
        show egMeasured 2 2 = 0 from rfl, show egMeasured 3 2 = 0 from rfl,
        show egMeasured 4 2 = 1 from rfl, show egMeasured 5 2 = -1 from rfl,
        Pi.zero_apply, fin3_mk_eq_two]
  have hcB : centroid (new_observed_pts egIntr egPix egObserved 1) = ![0, 0, 10] := by
    funext i
    simp only [centroid]
    rw [Fin.sum_univ_six]
    fin_cases i <;>
      norm_num [new_observed_pts, Matrix.of_apply,
        show egIntr 0 0 = 10 from rfl, show egIntr 0 2 = 0 from rfl,
        show egIntr 1 1 = 10 from rfl, show egIntr 1 2 = 0 from rfl,
        show egPix 0 0 = 1 from rfl, show egPix 1 0 = -1 from rfl,
        show egPix 2 0 = 0 from rfl, show egPix 3 0 = 0 from rfl,
        show egPix 4 0 = 0 from rfl, show egPix 5 0 = 0 from rfl,
        show egPix 0 1 = 0 from rfl, show egPix 1 1 = 0 from rfl,
        show egPix 2 1 = 1 from rfl, show egPix 3 1 = -1 from rfl,
        show egPix 4 1 = 0 from rfl, show egPix 5 1 = 0 from rfl,
        show egObserved 0 2 = 10 from rfl, show egObserved 1 2 = 10 from rfl,
        show egObserved 2 2 = 10 from rfl, show egObserved 3 2 = 10 from rfl,
        show egObserved 4 2 = 11 from rfl, show egObserved 5 2 = 9 from rfl,
        Matrix.vecHead, Matrix.vecTail, fin3_mk_eq_two, Fin.ext_iff]
  have hRt : get_rigid_transform egSvd egMeasured
      (new_observed_pts egIntr egPix egObserved 1) = (1, ![0, 0, 10]) := by
    simp only [get_rigid_transform, egSvd]
    simp only [Matrix.transpose_one, Matrix.mul_one, Matrix.one_mul]
    rw [if_neg (by norm_num [Matrix.det_one] : ¬ ((1 : Mat3 ℝ).det < 0))]
    refine Prod.ext rfl ?_
    rw [hcA, hcB]
    funext i
    simp [Matrix.neg_mulVec, Matrix.mulVec_zero]
  have h1 : persistPhase egSvd egIntr egMeasured egObserved egPix 1 = 1 := by
    simp only [persistPhase]
    exact Matrix.inv_eq_right_inv (Matrix.one_mul 1)
  have h2 : world2cameraOf egSvd egMeasured
      (new_observed_pts egIntr egPix egObserved 1) = homog 1 ![0, 0, 10] := by
    simp only [world2cameraOf, hRt]
  have h3 : (homog (1 : Mat3 ℝ) ![0, 0, 10])⁻¹ = homog 1 ![0, 0, -10] := by
    apply Matrix.inv_eq_right_inv
    ext i j
    fin_cases i <;> fin_cases j <;>
      norm_num [homog, Matrix.mul_apply, Fin.sum_univ_four, Matrix.one_apply,
        Fin.ext_iff, Matrix.vecHead, Matrix.vecTail, fin4_mk_eq_three,
        fin3_mk_eq_two, show ((0 : Fin 4) : ℕ) = 0 from rfl,
        show ((1 : Fin 4) : ℕ) = 1 from rfl, show ((2 : Fin 4) : ℕ) = 2 from rfl,
        show ((3 : Fin 4) : ℕ) = 3 from rfl]
  refine ⟨h1, h2, h3, ?_⟩
  rw [h1, h2, h3]
  intro h
  have he := Matrix.ext_iff.mpr h 2 3
  rw [Matrix.one_apply_ne (by decide)] at he
  norm_num [homog, Matrix.vecHead, Matrix.vecTail,
    show ((2 : Fin 4) : ℕ) = 2 from rfl, show ((3 : Fin 4) : ℕ) = 3 from rfl,
    fin3_mk_eq_two] at he

end Calib
